import Mathlib

/-!
Verification of the semantic vector-store subsystem of the foundryvtt-aide
module, as specified in spec.md.  The embedding follows
`src/document/vector_store.js` (the revision whose methods take
`EmbeddingDocument` values, lines 201-413 of the concatenated source file) and
`src/document/manager.js` (`calculateChunks`, the private `tokenize`).

Modelling conventions:
* JavaScript numbers are modelled as real numbers (`ℝ`).  IEEE artefacts
  (NaN, signed infinities) are outside the model; division by a zero norm,
  which yields NaN/Infinity in JavaScript, is Lean's total division.
* A JavaScript value that is passed where a vector is expected is either an
  array of elements (`JSVector.arr`) or some non-array value
  (`JSVector.notArray`); each element is either a number (`JSElem.num`) or a
  value of any other type (`JSElem.other`).  This is exactly the distinction
  `#validateVector` tests with `Array.isArray` and `typeof n === 'number'`.
* A thrown `Error` is modelled as a returned `some e : Option VError`,
  paired with the state the method leaves behind (JavaScript methods mutate
  `this` up to the point of the throw).
* The JavaScript `Map` backing `#cache` is modelled as an association list in
  insertion order; `Map.set` updates an existing key in place and appends a
  new key at the end (`mapSet` below).
* `localStorage` plus `JSON.stringify`/`JSON.parse` is modelled as one slot
  holding an `Option StoredRecord`; serialising and reparsing the record is
  lossless for this shape, so the JSON text itself is not modelled.
* Strings of text handed to the chunker are modelled as `List Char`.
-/

namespace Aide

/-- One element of a would-be vector: a JavaScript number, or a value of any
other type (`typeof n === 'number'` is false). -/
inductive JSElem where
  | num (x : ℝ)
  | other

/-- A JavaScript value in vector position: an array of elements, or a
non-array value (`Array.isArray` is false). -/
inductive JSVector where
  | arr (elems : List JSElem)
  | notArray

/-- Whether an element is a number (`typeof n === 'number'`). -/
def JSElem.isNum : JSElem → Bool
  | .num _ => true
  | .other => false

/-- Whether the value is an array at all (`Array.isArray(vector)`). -/
def JSVector.isArr : JSVector → Bool
  | .arr _ => true
  | .notArray => false

/-- The check guarding the first throw in `#validateVector`:
`Array.isArray(vector) && vector.every(n => typeof n === 'number')`. -/
def isNumericArray : JSVector → Bool
  | .arr elems => elems.all JSElem.isNum
  | .notArray => false

/-- The `length` a JavaScript array reports; `0` is an arbitrary default for
the non-array case, which `#validateVector` rejects before reading `length`. -/
def jsLen : JSVector → ℕ
  | .arr elems => elems.length
  | .notArray => 0

/-- The two validation errors `#validateVector` can throw.  Both message
templates interpolate the offending document's id. -/
inductive VError where
  | notNumeric (id : String)
  | dimMismatch (id : String) (expected got : ℕ)
deriving DecidableEq

/-- The document id interpolated into the thrown message. -/
def VError.docId : VError → String
  | .notNumeric id => id
  | .dimMismatch id _ _ => id

/-- The exact message text of the thrown `Error`. -/
def VError.message : VError → String
  | .notNumeric id => "Vector for " ++ id ++ " must be an array of numbers"
  | .dimMismatch id expected got =>
      "Vector dimension mismatch for " ++ id ++ ". Expected "
        ++ toString expected ++ ", got " ++ toString got

/-- An `EmbeddingDocument` as the store receives it: an id and the list of
chunk vectors (not yet validated, hence `JSVector`). -/
structure EmbeddingDocument where
  id : String
  vectors : List JSVector

/-- The state of a `VectorStore` instance: the private fields `#cache` and
`#dimension` together with the constructor parameters `lookups` and
`maxWeight`. -/
structure VectorStore where
  cache : List (String × List JSVector)
  dimension : ℕ
  lookups : ℕ
  maxWeight : ℝ

/-- JavaScript `Map.prototype.set`: replace the value of an existing key in
place, otherwise append the new pair in insertion order. -/
def mapSet {α : Type} (m : List (String × α)) (k : String) (v : α) :
    List (String × α) :=
  if m.any (fun p => p.1 == k) then
    m.map (fun p => if p.1 == k then (k, v) else p)
  else m ++ [(k, v)]

/-- `#validateVector(vector, id)`: mirrors the source branch for branch.  On
success it returns the value of `#dimension` after the call (the method
assigns `#dimension = vector.length` when the store's dimension is still 0);
on failure `#dimension` is left as it was. -/
def validateVector (dimension : ℕ) (vector : JSVector) (id : String) :
    Except VError ℕ :=
  match vector with
  | .notArray => .error (.notNumeric id)
  | .arr elems =>
      if elems.all JSElem.isNum = false then .error (.notNumeric id)
      else if dimension = 0 then .ok elems.length
      else if elems.length = dimension then .ok dimension
      else .error (.dimMismatch id dimension elems.length)

/-- `vectors.forEach(vector => this.#validateVector(vector, id))`: validate
each vector in order, threading `#dimension`, stopping at the first throw.
Returns the dimension reached together with the error, if any. -/
def validateVectors (dimension : ℕ) (id : String) :
    List JSVector → ℕ × Option VError
  | [] => (dimension, none)
  | v :: rest =>
      match validateVector dimension v id with
      | .error e => (dimension, some e)
      | .ok d => validateVectors d id rest

/-- The validation pass of `addBatch`: validate every document's vectors, in
document order, threading `#dimension`, stopping at the first throw. -/
def validateDocs (dimension : ℕ) :
    List EmbeddingDocument → ℕ × Option VError
  | [] => (dimension, none)
  | doc :: rest =>
      match validateVectors dimension doc.id doc.vectors with
      | (d, some e) => (d, some e)
      | (d, none) => validateDocs d rest

/-- `add(document)`: validate every vector, then set
`cache[document.id] = document.vectors`.  A throw leaves the cache untouched
but keeps whatever `#dimension` the successful validations set. -/
def VectorStore.add (s : VectorStore) (document : EmbeddingDocument) :
    VectorStore × Option VError :=
  match validateVectors s.dimension document.id document.vectors with
  | (d, some e) => ({ s with dimension := d }, some e)
  | (d, none) =>
      ({ s with dimension := d,
                cache := mapSet s.cache document.id document.vectors }, none)

/-- `addBatch(documents)`: validate ALL documents' vectors first, then
perform all the `cache.set` calls.  A throw during validation leaves the
cache untouched. -/
def VectorStore.addBatch (s : VectorStore) (documents : List EmbeddingDocument) :
    VectorStore × Option VError :=
  match validateDocs s.dimension documents with
  | (d, some e) => ({ s with dimension := d }, some e)
  | (d, none) =>
      ({ s with dimension := d,
                cache := documents.foldl
                  (fun c doc => mapSet c doc.id doc.vectors) s.cache }, none)

/-- `clear()`: empty the cache (the dimension is not reset). -/
def VectorStore.clear (s : VectorStore) : VectorStore :=
  { s with cache := [] }

/-- `size()`: the number of documents in the cache. -/
def VectorStore.size (s : VectorStore) : ℕ :=
  s.cache.length

/-- The persisted record under the fixed storage key:
`{ formatVersion, entries }`.  JSON round-tripping of this shape is modelled
as the identity. -/
structure StoredRecord where
  formatVersion : ℕ
  entries : List (String × List JSVector)

/-- `#saveToStorage()`: serialise the cache entries with
`STORAGE_FORMAT_VERSION = 1` into the slot. -/
def saveToStorage (s : VectorStore) : StoredRecord :=
  ⟨1, s.cache⟩

/-- `#loadFromStorage()`: on an empty slot the source parses `'{}'` and then
`Object.entries(undefined)` throws, the catch logs, and the cache stays
empty; on a populated slot each entry is `cache.set` in order.  (A mismatched
format version only invokes the no-op `#migrate` and loading proceeds.) -/
def loadFromStorage (slot : Option StoredRecord) :
    List (String × List JSVector) :=
  match slot with
  | none => []
  | some record => record.entries.foldl (fun c p => mapSet c p.1 p.2) []

/-- The constructor `new VectorStore(logger, lookups, maxWeight)` over a
given persisted slot: hydrate the cache; `#dimension` starts at 0 (it is
never restored from storage). -/
def freshStore (slot : Option StoredRecord) (lookups : ℕ) (maxWeight : ℝ) :
    VectorStore :=
  ⟨loadFromStorage slot, 0, lookups, maxWeight⟩

/-! ### The chunker (`src/document/manager.js`) -/

/-- The character class of the regex `/\s|[.,!?]/` applied to a single
character.  (`Char.isWhitespace` covers the ASCII whitespace the JavaScript
class matches on the inputs of interest.) -/
def isStopChar (c : Char) : Bool :=
  c.isWhitespace || c == '.' || c == ',' || c == '!' || c == '?'

/-- The regex test `/\s|[.,!?]/.test(token)` on a whole token: true when the
token contains a whitespace or punctuation character.  (`tokens[j]` read out
of range yields `undefined`, which the regex coerces to the string
"undefined" and rejects; the `[]` default behaves identically.) -/
def hasStopChar (t : List Char) : Bool :=
  t.any isStopChar

/-- The loop body of `#tokenize`: accumulate characters into `token`, emit it
as soon as it reaches 4 characters or the current character is
whitespace/punctuation, and emit any leftover at the end. -/
def tokenizeGo : List Char → List Char → List (List Char)
  | [], token => if token.length > 0 then [token] else []
  | c :: rest, token =>
      let token2 := token ++ [c]
      if 4 ≤ token2.length || isStopChar c then token2 :: tokenizeGo rest []
      else tokenizeGo rest token2

/-- `#tokenize(text)`. -/
def tokenize (text : List Char) : List (List Char) :=
  tokenizeGo text []

/-- The start-adjustment loop of `calculateChunks`:
`while (start > 0 && !/\s|[.,!?]/.test(tokens[start - 1])) start--`. -/
def adjustStart (tokens : List (List Char)) : ℕ → ℕ
  | 0 => 0
  | s + 1 => if hasStopChar (tokens.getD s []) then s + 1 else adjustStart tokens s

/-- The end-adjustment loop of `calculateChunks`:
`while (end < tokens.length && end > i && !/\s|[.,!?]/.test(tokens[end - 1])) end--`. -/
def adjustEnd (tokens : List (List Char)) (i : ℕ) (e : ℕ) : ℕ :=
  if h : e < tokens.length ∧ i < e ∧ hasStopChar (tokens.getD (e - 1) []) = false
  then adjustEnd tokens i (e - 1)
  else e
termination_by e
decreasing_by omega

/-- One iteration body of the chunk loop: adjust the window
`[i, i + chunkSize)` to boundaries and join the tokens in range
(`tokens.slice(start, end).join('')`). -/
def chunkAt (tokens : List (List Char)) (chunkSize i : ℕ) : List Char :=
  ((tokens.drop (adjustStart tokens i)).take
      (adjustEnd tokens i (i + chunkSize) - adjustStart tokens i)).flatten

/-- The indices `i` visited by
`for (let i = 0; i < tokens.length; i += step)`.  The guard `0 < step`
restricts the model to the terminating case: with `step ≤ 0` the JavaScript
loop never terminates. -/
def chunkStarts (total step i : ℕ) : List ℕ :=
  if _h : i < total ∧ 0 < step then i :: chunkStarts total step (i + step)
  else []
termination_by total - i
decreasing_by omega

/-- `calculateChunks(content)` with the configured `ChunkSize` and
`ChunkOverlap`. -/
def calculateChunks (chunkSize chunkOverlap : ℕ) (content : List Char) :
    List (List Char) :=
  (chunkStarts (tokenize content).length (chunkSize - chunkOverlap) 0).map
    (chunkAt (tokenize content) chunkSize)

/-- Ceiling division on naturals, used to state the chunk count. -/
def ceilDiv (n m : ℕ) : ℕ :=
  (n + m - 1) / m

/-! ### Similarity search (`findSimilar`, `cosineSimilarity`) -/

/-- The numeric value of an element.  Validation keeps non-numbers out of the
cache, so the `other` branch is never reached from a validated store (in
JavaScript it would produce NaN, which the real-valued model excludes). -/
def JSElem.val : JSElem → ℝ
  | .num x => x
  | .other => 0

/-- The list of numbers a stored vector holds. -/
def numsOf : JSVector → List ℝ
  | .arr elems => elems.map JSElem.val
  | .notArray => []

/-- `cosineSimilarity(vecA, vecB)`: dot product over the product of the
Euclidean norms.  The source iterates the dot product over `vecA`'s indices;
`zipWith` agrees with it whenever `vecA` is at most as long as `vecB`, and
the store's dimension invariant makes the lengths equal in every reachable
call. -/
noncomputable def cosineSimilarity (vecA vecB : List ℝ) : ℝ :=
  (List.zipWith (· * ·) vecA vecB).sum
    / (Real.sqrt (vecA.map (fun a => a * a)).sum
        * Real.sqrt (vecB.map (fun b => b * b)).sum)

/-- The similarity of the query against each vector belonging to a document
(the `document.map(vector => cosineSimilarity(queryVector, vector))` step). -/
noncomputable def docSimilarities (queryVector : List ℝ) (vectors : List JSVector) : List ℝ :=
  vectors.map (fun v => cosineSimilarity queryVector (numsOf v))

/-- The per-document score `findSimilar` computes:
`maxSim * maxWeight + avgSim * (1 - maxWeight)`.  `none` models the two
`TypeError`s the source can raise here: `reduce` without an initial value on
an empty similarity list, and `reduce` on a stored non-array vector. -/
noncomputable def docScore (maxWeight : ℝ) (queryVector : List ℝ)
    (vectors : List JSVector) : Option ℝ :=
  if vectors.all JSVector.isArr then
    match docSimilarities queryVector vectors with
    | [] => none
    | x :: xs =>
        some ((xs.foldl (fun m c => if c > m then c else m) x) * maxWeight
          + ((x :: xs).sum / ((x :: xs).length : ℝ)) * (1 - maxWeight))
  else none

/-- Scoring every cache entry in iteration order, propagating a raised
`TypeError` as `none`. -/
noncomputable def scoredAux (maxWeight : ℝ) (queryVector : List ℝ) :
    List (String × List JSVector) → Option (List (String × ℝ))
  | [] => some []
  | p :: rest =>
      match docScore maxWeight queryVector p.2, scoredAux maxWeight queryVector rest with
      | some r, some tail => some ((p.1, r) :: tail)
      | _, _ => none

/-- The `{id, score}` list `findSimilar` builds before sorting. -/
noncomputable def scoredList (s : VectorStore) (queryVector : List ℝ) :
    Option (List (String × ℝ)) :=
  scoredAux s.maxWeight queryVector s.cache

/-- The ordering of `.sort((a, b) => b.score - a.score)`: descending score.
ECMAScript guarantees a stable sort, modelled by a stable insertion sort. -/
def byScoreDesc (a b : String × ℝ) : Prop :=
  b.2 ≤ a.2

noncomputable instance : DecidableRel byScoreDesc :=
  fun a b => Real.decidableLE b.2 a.2

instance : IsTotal (String × ℝ) byScoreDesc :=
  ⟨fun a b => le_total b.2 a.2⟩

instance : IsTrans (String × ℝ) byScoreDesc :=
  ⟨fun _ _ _ h1 h2 => le_trans h2 h1⟩

/-- `findSimilar(queryVector)`: score every document, sort by descending
score (stably), and return the first `lookups` results. -/
noncomputable def VectorStore.findSimilar (s : VectorStore) (queryVector : List ℝ) :
    Option (List (String × ℝ)) :=
  (scoredList s queryVector).map
    (fun scored => (List.insertionSort byScoreDesc scored).take s.lookups)

/-! ### The final revision of the store, modelled from the spec

The repository's final revision of `vector_store.js` (the one constructed as
`new VectorStore(lookups, maxWeight, queryBoostFactor)` by `app.js` and
exercised by `vector_store.test.js`) is not among the provided source files;
only its callers and tests are.  The definitions below are therefore modelled
from the spec's description of that revision (spec.md section 4.2). -/

/-- Euclidean norm of a vector, as `Math.sqrt` of the sum of squares. -/
noncomputable def vecNorm (v : List ℝ) : ℝ :=
  Real.sqrt (v.map (fun a => a * a)).sum

/-- Modelled from the spec: the length-normalized similarity variant of the
final `vector_store.js` revision, which is absent from the source tree.
Spec: compute plain cosine similarity, square it, then multiply by
`(min(normA,normB)/max(normA,normB)) ^ boostExponent`, where `boostExponent`
is `queryBoostFactor` if the query vector's norm is smaller than the document
vector's norm, else 1.  The exponent is a real exponent (`Real.rpow`). -/
noncomputable def cosineSimilarityFinal (queryBoostFactor : ℝ)
    (queryVector docVector : List ℝ) : ℝ :=
  let cosine := cosineSimilarity queryVector docVector
  let normA := vecNorm queryVector
  let normB := vecNorm docVector
  let boostExponent := if normA < normB then queryBoostFactor else (1 : ℝ)
  cosine ^ 2 * (min normA normB / max normA normB) ^ boostExponent

/-- Modelled from the spec: the maximum chunk similarity of a document.  The
spec's `EmbeddingDocument` carries a non-empty vector sequence, so the `[]`
case is an inessential default. -/
noncomputable def maxSim : List ℝ → ℝ
  | [] => 0
  | x :: xs => xs.foldl max x

/-- Modelled from the spec: the per-query score of one stored document in the
final revision, `(maxChunkSimilarity * maxWeight) +
(avgChunkSimilarity * (1 - maxWeight))`, chunk similarity being the
length-normalized variant computed against every vector of the document. -/
noncomputable def perQueryScoreFinal (maxWeight queryBoostFactor : ℝ)
    (queryVector : List ℝ) (vectors : List (List ℝ)) : ℝ :=
  let sims := vectors.map (fun c => cosineSimilarityFinal queryBoostFactor queryVector c)
  maxSim sims * maxWeight + (sims.sum / (sims.length : ℝ)) * (1 - maxWeight)

/-- Modelled from the spec: `findSimilar` of the final revision accepts
either a single query vector or a sequence of query vectors. -/
inductive QueryInput where
  | single (v : List ℝ)
  | multi (vs : List (List ℝ))

/-- The sequence of query vectors an input denotes. -/
def QueryInput.toList : QueryInput → List (List ℝ)
  | .single v => [v]
  | .multi vs => vs

/-- Modelled from the spec: a document's final score is the average of the
per-query scores over the supplied query vectors. -/
noncomputable def docScoreFinal (maxWeight queryBoostFactor : ℝ)
    (queries : List (List ℝ)) (vectors : List (List ℝ)) : ℝ :=
  (queries.map (fun q => perQueryScoreFinal maxWeight queryBoostFactor q vectors)).sum
    / (queries.length : ℝ)

/-- Modelled from the spec: `findSimilar` of the final revision.  Score every
stored document, sort by descending score (stable ties), return the top
`lookups` results as id/score pairs. -/
noncomputable def findSimilarFinal (lookups : ℕ) (maxWeight queryBoostFactor : ℝ)
    (cache : List (String × List (List ℝ))) (query : QueryInput) :
    List (String × ℝ) :=
  (List.insertionSort byScoreDesc
      (cache.map (fun p =>
        (p.1, docScoreFinal maxWeight queryBoostFactor query.toList p.2)))).take
    lookups

/-! ### Store operation sequences (for the lifetime invariant of C3) -/

/-- A mutating call on a live store. -/
inductive StoreOp where
  | add (doc : EmbeddingDocument)
  | addBatch (docs : List EmbeddingDocument)
  | clear

/-- Apply one mutating call (discarding any raised validation error, which
leaves exactly the state the call reached). -/
def applyOp (s : VectorStore) : StoreOp → VectorStore
  | .add doc => (s.add doc).1
  | .addBatch docs => (s.addBatch docs).1
  | .clear => s.clear

/-- Run a sequence of mutating calls. -/
def runOps (s : VectorStore) (ops : List StoreOp) : VectorStore :=
  ops.foldl applyOp s

/-- A stored vector compatible with the store dimension `d`: a numeric array
whose length is `d`, or an empty one (empty vectors slip through validation
while the dimension is still unset). -/
def GoodVec (d : ℕ) (v : JSVector) : Prop :=
  isNumericArray v = true ∧ (jsLen v = 0 ∨ jsLen v = d)

/-- The dimension invariant a store reachable by mutating calls satisfies. -/
def StoreInv (s : VectorStore) : Prop :=
  ∀ p ∈ s.cache, ∀ v ∈ p.2, GoodVec s.dimension v

/-- A concrete store used by witnesses: three one-chunk documents of
dimension 1, with `lookups = 2` and `maxWeight = 1`. -/
def exampleStore : VectorStore :=
  ⟨[("d1", [.arr [.num 1]]), ("d2", [.arr [.num 1]]), ("d3", [.arr [.num 1]])],
    1, 2, 1⟩

/-- A concrete store used by witnesses: one document whose vector list is
empty. -/
def emptyDocStore : VectorStore :=
  ⟨[("e", [])], 0, 3, 1⟩

/-- A concrete store used by witnesses: one stored document, dimension
locked to 1. -/
def lockedStore : VectorStore :=
  ⟨[("a", [.arr [.num 1]])], 1, 3, 1⟩

/-! ### Validation lemmas -/

theorem validateVector_ok {d : ℕ} {v : JSVector} {id : String} {d' : ℕ}
    (h : validateVector d v id = .ok d') :
    isNumericArray v = true ∧
      ((d = 0 ∧ d' = jsLen v) ∨ (d ≠ 0 ∧ d' = d ∧ jsLen v = d)) := by
  cases v with
  | notArray => simp [validateVector] at h
  | arr elems =>
      cases hall : elems.all JSElem.isNum with
      | false => simp [validateVector, hall] at h
      | true =>
          have hnum : isNumericArray (JSVector.arr elems) = true := by
            simpa [isNumericArray] using hall
          by_cases h0 : d = 0
          · have hv : validateVector d (JSVector.arr elems) id = .ok elems.length := by
              simp [validateVector, hall, h0]
            rw [hv] at h
            injection h with h'
            exact ⟨hnum, .inl ⟨h0, h'.symm⟩⟩
          · by_cases hlen : elems.length = d
            · have hv : validateVector d (JSVector.arr elems) id = .ok d := by
                simp [validateVector, hall, h0, hlen]
              rw [hv] at h
              injection h with h'
              exact ⟨hnum, .inr ⟨h0, h'.symm, hlen⟩⟩
            · have hv : validateVector d (JSVector.arr elems) id
                  = .error (.dimMismatch id d elems.length) := by
                simp [validateVector, hall, h0, hlen]
              rw [hv] at h
              simp at h

theorem validateVector_error {d : ℕ} {v : JSVector} {id : String} {e : VError}
    (h : validateVector d v id = .error e) :
    e.docId = id ∧ (isNumericArray v = false ∨ (d ≠ 0 ∧ jsLen v ≠ d)) := by
  cases v with
  | notArray =>
      simp only [validateVector] at h
      injection h with h'
      exact ⟨by rw [← h']; rfl, .inl rfl⟩
  | arr elems =>
      cases hall : elems.all JSElem.isNum with
      | false =>
          have hv : validateVector d (JSVector.arr elems) id
              = .error (.notNumeric id) := by
            simp [validateVector, hall]
          rw [hv] at h
          injection h with h'
          exact ⟨by rw [← h']; rfl, .inl (by simp [isNumericArray, hall])⟩
      | true =>
          by_cases h0 : d = 0
          · have hv : validateVector d (JSVector.arr elems) id = .ok elems.length := by
              simp [validateVector, hall, h0]
            rw [hv] at h
            simp at h
          · by_cases hlen : elems.length = d
            · have hv : validateVector d (JSVector.arr elems) id = .ok d := by
                simp [validateVector, hall, h0, hlen]
              rw [hv] at h
              simp at h
            · have hv : validateVector d (JSVector.arr elems) id
                  = .error (.dimMismatch id d elems.length) := by
                simp [validateVector, hall, h0, hlen]
              rw [hv] at h
              injection h with h'
              exact ⟨by rw [← h']; rfl, .inr ⟨h0, by simpa [jsLen] using hlen⟩⟩

theorem validateVector_ne_zero {d : ℕ} (hd : d ≠ 0) {v : JSVector} {id : String}
    {d' : ℕ} (h : validateVector d v id = .ok d') :
    d' = d ∧ isNumericArray v = true ∧ jsLen v = d := by
  rcases validateVector_ok h with ⟨hnum, hcase⟩
  rcases hcase with ⟨h0, _⟩ | ⟨_, hd', hlen⟩
  · exact absurd h0 hd
  · exact ⟨hd', hnum, hlen⟩

theorem validateVectors_cons_ok {d : ℕ} {id : String} {v : JSVector}
    {d₁ : ℕ} (hval : validateVector d v id = .ok d₁) (rest : List JSVector) :
    validateVectors d id (v :: rest) = validateVectors d₁ id rest := by
  simp [validateVectors, hval]

theorem validateVectors_cons_error {d : ℕ} {id : String} {v : JSVector}
    {e : VError} (hval : validateVector d v id = .error e) (rest : List JSVector) :
    validateVectors d id (v :: rest) = (d, some e) := by
  simp [validateVectors, hval]

theorem validateVectors_dim_ne_zero {d : ℕ} (hd : d ≠ 0) (id : String)
    (vecs : List JSVector) : (validateVectors d id vecs).1 = d := by
  induction vecs generalizing d with
  | nil => rfl
  | cons v rest ih =>
      cases hv : validateVector d v id with
      | error e => rw [validateVectors_cons_error hv]
      | ok d₁ =>
          rw [validateVectors_cons_ok hv]
          rcases validateVector_ne_zero hd hv with ⟨rfl, _, _⟩
          exact ih hd

theorem validateVectors_error_docId {d : ℕ} {id : String} {vecs : List JSVector}
    {e : VError} (h : (validateVectors d id vecs).2 = some e) : e.docId = id := by
  induction vecs generalizing d with
  | nil => simp [validateVectors] at h
  | cons v rest ih =>
      cases hv : validateVector d v id with
      | error e' =>
          rw [validateVectors_cons_error hv] at h
          simp only at h
          injection h with h'
          rw [← h']
          exact (validateVector_error hv).1
      | ok d₁ =>
          rw [validateVectors_cons_ok hv] at h
          exact ih h

theorem validateVectors_ok_good {d : ℕ} {id : String} {vecs : List JSVector}
    (h : (validateVectors d id vecs).2 = none) :
    ∀ v ∈ vecs, isNumericArray v = true
      ∧ (jsLen v = 0 ∨ jsLen v = (validateVectors d id vecs).1)
      ∧ (d ≠ 0 → jsLen v = d) := by
  induction vecs generalizing d with
  | nil => intro v hv; cases hv
  | cons v₀ rest ih =>
      intro v hv
      cases hval : validateVector d v₀ id with
      | error e => rw [validateVectors_cons_error hval] at h; simp at h
      | ok d₁ =>
          rw [validateVectors_cons_ok hval] at h ⊢
          rcases validateVector_ok hval with ⟨hnum, hcase⟩
          rcases List.mem_cons.mp hv with rfl | hv
          · refine ⟨hnum, ?_, ?_⟩
            · rcases hcase with ⟨h0, rfl⟩ | ⟨hne, rfl, hlen⟩
              · by_cases hz : jsLen v = 0
                · exact .inl hz
                · exact .inr (validateVectors_dim_ne_zero hz id rest).symm
              · exact .inr (by rw [validateVectors_dim_ne_zero hne id rest]; exact hlen)
            · intro hdne
              rcases hcase with ⟨h0, _⟩ | ⟨_, _, hlen⟩
              · exact absurd h0 hdne
              · exact hlen
          · have hrest := ih h v hv
            refine ⟨hrest.1, hrest.2.1, ?_⟩
            intro hdne
            rcases hcase with ⟨h0, _⟩ | ⟨hne, rfl, _⟩
            · exact absurd h0 hdne
            · exact hrest.2.2 hdne

theorem validateVectors_error_ne_zero {d : ℕ} (hd : d ≠ 0) {id : String}
    {vecs : List JSVector} {e : VError}
    (h : (validateVectors d id vecs).2 = some e) :
    ∃ v ∈ vecs, isNumericArray v = false ∨ jsLen v ≠ d := by
  induction vecs generalizing d with
  | nil => simp [validateVectors] at h
  | cons v₀ rest ih =>
      cases hval : validateVector d v₀ id with
      | error e' =>
          rcases validateVector_error hval with ⟨_, hbad⟩
          refine ⟨v₀, List.mem_cons_self _ _, ?_⟩
          rcases hbad with hb | ⟨_, hb⟩
          · exact .inl hb
          · exact .inr hb
      | ok d₁ =>
          rw [validateVectors_cons_ok hval] at h
          rcases validateVector_ne_zero hd hval with ⟨rfl, _, _⟩
          rcases ih hd h with ⟨v, hv, hbad⟩
          exact ⟨v, List.mem_cons_of_mem _ hv, hbad⟩

theorem validateVectors_fails {d : ℕ} (hd : d ≠ 0) (id : String)
    {vecs : List JSVector}
    (hbad : ∃ v ∈ vecs, isNumericArray v = false ∨ jsLen v ≠ d) :
    (validateVectors d id vecs).2.isSome := by
  cases hres : (validateVectors d id vecs).2 with
  | some e => rfl
  | none =>
      exfalso
      rcases hbad with ⟨v, hv, hbad⟩
      rcases validateVectors_ok_good hres v hv with ⟨hnum, _, hlen⟩
      rcases hbad with hb | hb
      · rw [hnum] at hb; cases hb
      · exact hb (hlen hd)

theorem validateDocs_cons_ok {d : ℕ} {doc : EmbeddingDocument} {d₁ : ℕ}
    (hres : validateVectors d doc.id doc.vectors = (d₁, none))
    (rest : List EmbeddingDocument) :
    validateDocs d (doc :: rest) = validateDocs d₁ rest := by
  simp [validateDocs, hres]

theorem validateDocs_cons_error {d : ℕ} {doc : EmbeddingDocument} {d₁ : ℕ}
    {e : VError} (hres : validateVectors d doc.id doc.vectors = (d₁, some e))
    (rest : List EmbeddingDocument) :
    validateDocs d (doc :: rest) = (d₁, some e) := by
  simp [validateDocs, hres]

theorem validateDocs_dim_ne_zero {d : ℕ} (hd : d ≠ 0)
    (docs : List EmbeddingDocument) : (validateDocs d docs).1 = d := by
  induction docs generalizing d with
  | nil => rfl
  | cons doc rest ih =>
      cases hres : validateVectors d doc.id doc.vectors with
      | mk d₁ err =>
          have hd₁ : d₁ = d := by
            have := validateVectors_dim_ne_zero hd doc.id doc.vectors
            rw [hres] at this
            exact this
          subst hd₁
          cases err with
          | some e => rw [validateDocs_cons_error hres]
          | none => rw [validateDocs_cons_ok hres]; exact ih hd

theorem validateDocs_ok_good {d : ℕ} {docs : List EmbeddingDocument}
    (h : (validateDocs d docs).2 = none) :
    ∀ doc ∈ docs, ∀ v ∈ doc.vectors, isNumericArray v = true
      ∧ (jsLen v = 0 ∨ jsLen v = (validateDocs d docs).1)
      ∧ (d ≠ 0 → jsLen v = d) := by
  induction docs generalizing d with
  | nil => intro doc hdoc; cases hdoc
  | cons doc₀ rest ih =>
      intro doc hdoc v hv
      cases hres : validateVectors d doc₀.id doc₀.vectors with
      | mk d₁ err =>
          cases err with
          | some e => rw [validateDocs_cons_error hres] at h; simp at h
          | none =>
              rw [validateDocs_cons_ok hres] at h ⊢
              have hgood := validateVectors_ok_good
                (show (validateVectors d doc₀.id doc₀.vectors).2 = none by rw [hres])
              rcases List.mem_cons.mp hdoc with rfl | hdoc
              · rcases hgood v hv with ⟨hnum, hlen01, hlend⟩
                rw [hres] at hlen01
                refine ⟨hnum, ?_, hlend⟩
                rcases hlen01 with hz | hl
                · exact .inl hz
                · rcases Nat.eq_zero_or_pos d₁ with rfl | hd₁pos
                  · by_cases hz : jsLen v = 0
                    · exact .inl hz
                    · simp only at hl; omega
                  · have hd₁ : d₁ ≠ 0 := by omega
                    exact .inr (by rw [validateDocs_dim_ne_zero hd₁ rest]; exact hl)
              · have hrest := ih h doc hdoc v hv
                refine ⟨hrest.1, hrest.2.1, ?_⟩
                intro hdne
                have hd₁ : d₁ = d := by
                  have := validateVectors_dim_ne_zero hdne doc₀.id doc₀.vectors
                  rw [hres] at this
                  exact this
                subst hd₁
                exact hrest.2.2 hdne

theorem validateDocs_error_ne_zero {d : ℕ} (hd : d ≠ 0)
    {docs : List EmbeddingDocument} {e : VError}
    (h : (validateDocs d docs).2 = some e) :
    ∃ doc ∈ docs, e.docId = doc.id
      ∧ ∃ v ∈ doc.vectors, isNumericArray v = false ∨ jsLen v ≠ d := by
  induction docs generalizing d with
  | nil => simp [validateDocs] at h
  | cons doc₀ rest ih =>
      cases hres : validateVectors d doc₀.id doc₀.vectors with
      | mk d₁ err =>
          cases err with
          | some e' =>
              rw [validateDocs_cons_error hres] at h
              simp only [Prod.snd] at h
              injection h with h'
              subst h'
              refine ⟨doc₀, List.mem_cons_self _ _, ?_, ?_⟩
              · exact validateVectors_error_docId
                  (show (validateVectors d doc₀.id doc₀.vectors).2 = some e' by rw [hres])
              · exact validateVectors_error_ne_zero hd
                  (show (validateVectors d doc₀.id doc₀.vectors).2 = some e' by rw [hres])
          | none =>
              rw [validateDocs_cons_ok hres] at h
              have hd₁ : d₁ = d := by
                have := validateVectors_dim_ne_zero hd doc₀.id doc₀.vectors
                rw [hres] at this
                exact this
              subst hd₁
              rcases ih hd h with ⟨doc, hdoc, hid, hbad⟩
              exact ⟨doc, List.mem_cons_of_mem _ hdoc, hid, hbad⟩

theorem validateDocs_fails {d : ℕ} (hd : d ≠ 0) {docs : List EmbeddingDocument}
    (hbad : ∃ doc ∈ docs, ∃ v ∈ doc.vectors,
      isNumericArray v = false ∨ jsLen v ≠ d) :
    (validateDocs d docs).2.isSome := by
  cases hres : (validateDocs d docs).2 with
  | some e => rfl
  | none =>
      exfalso
      rcases hbad with ⟨doc, hdoc, v, hv, hbad⟩
      rcases validateDocs_ok_good hres doc hdoc v hv with ⟨hnum, _, hlen⟩
      rcases hbad with hb | hb
      · rw [hnum] at hb; cases hb
      · exact hb (hlen hd)

/-! ### Map lemmas -/

theorem anyKey_iff {β : Type} (m : List (String × β)) (k : String) :
    m.any (fun p => p.1 == k) = true ↔ k ∈ m.map Prod.fst := by
  simp only [List.any_eq_true, beq_iff_eq, List.mem_map]

theorem mapSet_found {β : Type} {m : List (String × β)} {k : String} (v : β)
    (h : k ∈ m.map Prod.fst) :
    mapSet m k v = m.map (fun p => if p.1 == k then (k, v) else p) := by
  simp only [mapSet, (anyKey_iff m k).mpr h, if_true]

theorem mapSet_not_found {β : Type} {m : List (String × β)} {k : String} (v : β)
    (h : k ∉ m.map Prod.fst) :
    mapSet m k v = m ++ [(k, v)] := by
  have : m.any (fun p => p.1 == k) = false := by
    cases hany : m.any (fun p => p.1 == k) with
    | false => rfl
    | true => exact absurd ((anyKey_iff m k).mp hany) h
  simp only [mapSet, this, Bool.false_eq_true, if_false]

theorem mapSet_keys {β : Type} (m : List (String × β)) (k : String) (v : β) :
    (mapSet m k v).map Prod.fst
      = if k ∈ m.map Prod.fst then m.map Prod.fst
        else m.map Prod.fst ++ [k] := by
  by_cases h : k ∈ m.map Prod.fst
  · rw [if_pos h, mapSet_found v h, List.map_map]
    apply List.map_congr_left
    intro p _
    by_cases hp : p.1 = k
    · simp [hp]
    · simp [hp]
  · rw [if_neg h, mapSet_not_found v h, List.map_append]
    rfl

theorem mem_mapSet_keys {β : Type} {m : List (String × β)} {k k' : String}
    {v : β} :
    k' ∈ (mapSet m k v).map Prod.fst ↔ k' ∈ m.map Prod.fst ∨ k' = k := by
  rw [mapSet_keys]
  by_cases h : k ∈ m.map Prod.fst
  · rw [if_pos h]
    constructor
    · exact Or.inl
    · rintro (hk | rfl)
      · exact hk
      · exact h
  · rw [if_neg h, List.mem_append, List.mem_singleton]

theorem mapSet_keys_nodup {β : Type} {m : List (String × β)} {k : String}
    {v : β} (h : (m.map Prod.fst).Nodup) :
    ((mapSet m k v).map Prod.fst).Nodup := by
  rw [mapSet_keys]
  by_cases hk : k ∈ m.map Prod.fst
  · rwa [if_pos hk]
  · rw [if_neg hk]
    exact ((List.perm_append_singleton k _).nodup_iff).mpr
      (List.nodup_cons.mpr ⟨hk, h⟩)

theorem mem_of_mem_mapSet {β : Type} {m : List (String × β)} {k : String}
    {v : β} {q : String × β} (h : q ∈ mapSet m k v) :
    q = (k, v) ∨ q ∈ m := by
  by_cases hk : k ∈ m.map Prod.fst
  · rw [mapSet_found v hk] at h
    rcases List.mem_map.mp h with ⟨p, hp, rfl⟩
    by_cases hpk : p.1 = k
    · rw [if_pos (by simpa using hpk)]
      exact .inl rfl
    · rw [if_neg (by simpa using hpk)]
      exact .inr hp
  · rw [mapSet_not_found v hk] at h
    rcases List.mem_append.mp h with hq | hq
    · exact .inr hq
    · exact .inl (List.mem_singleton.mp hq)

theorem foldl_mapSet_keys_nodup {α β : Type} (key : α → String) (value : α → β) :
    ∀ (l : List α) (acc : List (String × β)), (acc.map Prod.fst).Nodup →
      ((l.foldl (fun c a => mapSet c (key a) (value a)) acc).map Prod.fst).Nodup := by
  intro l
  induction l with
  | nil => intro acc hacc; exact hacc
  | cons a rest ih =>
      intro acc hacc
      exact ih (mapSet acc (key a) (value a)) (mapSet_keys_nodup hacc)

theorem mem_foldl_mapSet_keys {α β : Type} (key : α → String) (value : α → β) :
    ∀ (l : List α) (acc : List (String × β)) (k : String),
      k ∈ (l.foldl (fun c a => mapSet c (key a) (value a)) acc).map Prod.fst
        ↔ k ∈ acc.map Prod.fst ∨ k ∈ l.map key := by
  intro l
  induction l with
  | nil => intro acc k; simp
  | cons a rest ih =>
      intro acc k
      rw [List.foldl_cons, ih, mem_mapSet_keys, List.map_cons, List.mem_cons]
      tauto

theorem foldl_mapSet_fresh {α β : Type} (key : α → String) (value : α → β) :
    ∀ (l : List α) (acc : List (String × β)), (l.map key).Nodup →
      (∀ a ∈ l, key a ∉ acc.map Prod.fst) →
      l.foldl (fun c a => mapSet c (key a) (value a)) acc
        = acc ++ l.map (fun a => (key a, value a)) := by
  intro l
  induction l with
  | nil => intro acc _ _; simp
  | cons a rest ih =>
      intro acc hnodup hfresh
      rw [List.map_cons] at hnodup
      have hnd := List.nodup_cons.mp hnodup
      have hfresh2 : ∀ b ∈ rest, key b ∉ (acc ++ [(key a, value a)]).map Prod.fst := by
        intro b hb
        rw [List.map_append, List.mem_append]
        rintro (hmem | hmem)
        · exact hfresh b (List.mem_cons_of_mem _ hb) hmem
        · have hba : key b = key a := by simpa using hmem
          exact hnd.1 (hba ▸ List.mem_map_of_mem key hb)
      rw [List.foldl_cons,
        mapSet_not_found (value a) (hfresh a (List.mem_cons_self _ _)),
        ih (acc ++ [(key a, value a)]) hnd.2 hfresh2]
      simp

theorem mem_foldl_mapSet {α β : Type} (key : α → String) (value : α → β) :
    ∀ (l : List α) (acc : List (String × β)) (q : String × β),
      q ∈ l.foldl (fun c a => mapSet c (key a) (value a)) acc →
      (∃ a ∈ l, q = (key a, value a)) ∨ q ∈ acc := by
  intro l
  induction l with
  | nil => intro acc q hq; exact .inr hq
  | cons a rest ih =>
      intro acc q hq
      rcases ih (mapSet acc (key a) (value a)) q hq with ⟨b, hb, rfl⟩ | hmem
      · exact .inl ⟨b, List.mem_cons_of_mem _ hb, rfl⟩
      · rcases mem_of_mem_mapSet hmem with rfl | hacc
        · exact .inl ⟨a, List.mem_cons_self _ _, rfl⟩
        · exact .inr hacc

/-! ### Chunker lemmas -/

theorem chunkStarts_pos {total step i : ℕ} (h : i < total) (hstep : 0 < step) :
    chunkStarts total step i = i :: chunkStarts total step (i + step) := by
  rw [chunkStarts, dif_pos ⟨h, hstep⟩]

theorem chunkStarts_neg {total step i : ℕ} (h : ¬(i < total ∧ 0 < step)) :
    chunkStarts total step i = [] := by
  rw [chunkStarts, dif_neg h]

theorem ceilDiv_zero (m : ℕ) : ceilDiv 0 m = 0 := by
  unfold ceilDiv
  cases m with
  | zero => rfl
  | succ m => exact Nat.div_eq_of_lt (by omega)

theorem ceilDiv_sub {n m : ℕ} (hm : 0 < m) (hn : 0 < n) :
    ceilDiv n m = ceilDiv (n - m) m + 1 := by
  unfold ceilDiv
  by_cases h : m ≤ n
  · have heq : n + m - 1 = ((n - m) + m - 1) + m := by omega
    rw [heq, Nat.add_div_right _ hm]
  · have h1 : n - m = 0 := by omega
    rw [h1]
    have h2 : n + m - 1 = (n - 1) + m := by omega
    rw [h2, Nat.add_div_right _ hm, Nat.div_eq_of_lt (by omega)]
    have h3 : 0 + m - 1 = m - 1 := by omega
    rw [h3, Nat.div_eq_of_lt (by omega)]

theorem chunkStarts_spec (step : ℕ) (hstep : 0 < step) (total i : ℕ) :
    chunkStarts total step i
      = (List.range (ceilDiv (total - i) step)).map (fun k => i + k * step) := by
  have H : ∀ n i, total - i ≤ n →
      chunkStarts total step i
        = (List.range (ceilDiv (total - i) step)).map (fun k => i + k * step) := by
    intro n
    induction n with
    | zero =>
        intro i hle
        have hni : ¬(i < total ∧ 0 < step) := by omega
        have h0 : total - i = 0 := by omega
        rw [chunkStarts_neg hni, h0, ceilDiv_zero]
        rfl
    | succ n ih =>
        intro i hle
        by_cases hi : i < total
        · have hc : ceilDiv (total - i) step
              = ceilDiv (total - (i + step)) step + 1 := by
            have : total - (i + step) = (total - i) - step := by omega
            rw [this]
            exact ceilDiv_sub hstep (by omega)
          rw [chunkStarts_pos hi hstep, ih (i + step) (by omega), hc,
            List.range_succ_eq_map, List.map_cons, List.map_map]
          refine List.cons_eq_cons.mpr ⟨by simp, ?_⟩
          apply List.map_congr_left
          intro k _
          simp only [Function.comp, Nat.succ_eq_add_one]
          ring
        · have hni : ¬(i < total ∧ 0 < step) := by tauto
          have h0 : total - i = 0 := by omega
          rw [chunkStarts_neg hni, h0, ceilDiv_zero]
          rfl
  exact H (total - i) i le_rfl

theorem tokenizeGo_flatten : ∀ (cs token : List Char),
    (tokenizeGo cs token).flatten = token ++ cs := by
  intro cs
  induction cs with
  | nil =>
      intro token
      by_cases h : token.length > 0
      · simp [tokenizeGo, h]
      · have htok : token = [] := by
          cases token with
          | nil => rfl
          | cons a as => simp at h
        subst htok
        simp [tokenizeGo]
  | cons c rest ih =>
      intro token
      simp only [tokenizeGo]
      split
      · simp [ih]
      · simp [ih]

theorem tokenizeGo_token_len : ∀ (cs token : List Char), token.length ≤ 3 →
    ∀ t ∈ tokenizeGo cs token, t.length ≤ 4 := by
  intro cs
  induction cs with
  | nil =>
      intro token hlen t ht
      simp only [tokenizeGo] at ht
      split at ht
      · rw [List.mem_singleton] at ht
        subst ht
        omega
      · cases ht
  | cons c rest ih =>
      intro token hlen t ht
      simp only [tokenizeGo] at ht
      split at ht
      next hcond =>
        rcases List.mem_cons.mp ht with rfl | ht
        · simp only [List.length_append, List.length_singleton]
          omega
        · exact ih [] (by simp) t ht
      next hcond =>
        have hshort : (token ++ [c]).length ≤ 3 := by
          simp only [Bool.or_eq_true, decide_eq_true_eq, not_or] at hcond
          have := hcond.1
          omega
        exact ih (token ++ [c]) hshort t ht

/-- C10: tokenization is a partition of the input text: the tokens
concatenate back to exactly the original text, and every token has length at
most 4. -/
theorem tokenize_partition (text : List Char) :
    (tokenize text).flatten = text ∧ ∀ t ∈ tokenize text, t.length ≤ 4 :=
  ⟨by simpa [tokenize] using tokenizeGo_flatten text [],
   fun t ht => tokenizeGo_token_len text [] (by simp) t ht⟩

/-- C8: with `0 ≤ chunkOverlap < chunkSize`, the chunker emits exactly
`⌈T / (chunkSize - chunkOverlap)⌉` chunks, where `T` is the token count; the
i-th window starts at token index `i * (chunkSize - chunkOverlap)` before
boundary adjustment; empty input yields no chunks. -/
theorem calculateChunks_count (chunkSize chunkOverlap : ℕ)
    (h : chunkOverlap < chunkSize) (content : List Char) :
    (calculateChunks chunkSize chunkOverlap content).length
        = ceilDiv (tokenize content).length (chunkSize - chunkOverlap)
    ∧ chunkStarts (tokenize content).length (chunkSize - chunkOverlap) 0
        = (List.range
            (ceilDiv (tokenize content).length (chunkSize - chunkOverlap))).map
            (fun k => k * (chunkSize - chunkOverlap))
    ∧ (content = [] → calculateChunks chunkSize chunkOverlap content = []) := by
  have hstep : 0 < chunkSize - chunkOverlap := by omega
  have hspec := chunkStarts_spec (chunkSize - chunkOverlap) hstep
    (tokenize content).length 0
  simp only [Nat.sub_zero, Nat.zero_add] at hspec
  refine ⟨?_, hspec, ?_⟩
  · simp [calculateChunks, hspec]
  · intro hnil
    subst hnil
    unfold calculateChunks
    rw [show (tokenize ([] : List Char)).length = 0 from rfl,
      chunkStarts_neg (by omega)]
    rfl

/-! ### Scoring lemmas -/

theorem init_le_foldl_max : ∀ (xs : List ℝ) (x : ℝ), x ≤ xs.foldl max x := by
  intro xs
  induction xs with
  | nil => intro x; exact le_refl x
  | cons y ys ih =>
      intro x
      rw [List.foldl_cons]
      exact le_trans (le_max_left x y) (ih (max x y))

theorem foldl_max_mem : ∀ (xs : List ℝ) (x : ℝ), xs.foldl max x ∈ x :: xs := by
  intro xs
  induction xs with
  | nil => intro x; exact List.mem_singleton.mpr rfl
  | cons y ys ih =>
      intro x
      rw [List.foldl_cons]
      rcases List.mem_cons.mp (ih (max x y)) with h | h
      · rw [h]
        rcases max_choice x y with hm | hm
        · rw [hm]; exact List.mem_cons_self _ _
        · rw [hm]; exact List.mem_cons_of_mem _ (List.mem_cons_self _ _)
      · exact List.mem_cons_of_mem _ (List.mem_cons_of_mem _ h)

theorem le_foldl_max : ∀ (xs : List ℝ) (x y : ℝ), y ∈ x :: xs →
    y ≤ xs.foldl max x := by
  intro xs
  induction xs with
  | nil =>
      intro x y hy
      rw [List.mem_singleton] at hy
      exact le_of_eq hy
  | cons z zs ih =>
      intro x y hy
      rw [List.foldl_cons]
      rcases List.mem_cons.mp hy with rfl | hy2
      · exact le_trans (le_max_left _ z) (init_le_foldl_max zs _)
      · rcases List.mem_cons.mp hy2 with rfl | hy3
        · exact le_trans (le_max_right x _) (init_le_foldl_max zs _)
        · exact ih (max x z) y (List.mem_cons_of_mem _ hy3)

theorem foldl_ifmax : ∀ (xs : List ℝ) (x : ℝ),
    xs.foldl (fun m c => if c > m then c else m) x = xs.foldl max x := by
  intro xs
  induction xs with
  | nil => intro x; rfl
  | cons y ys ih =>
      intro x
      have hxy : (if y > x then y else x) = max x y := by
        rcases le_or_lt y x with h | h
        · rw [if_neg (not_lt.mpr h), max_eq_left h]
        · rw [if_pos h, max_eq_right h.le]
      simp only [List.foldl_cons, hxy, ih]

theorem docScore_nil (w : ℝ) (q : List ℝ) : docScore w q [] = none := rfl

theorem docScore_isSome {vectors : List JSVector} (w : ℝ) (q : List ℝ)
    (hne : 0 < vectors.length) (harr : vectors.all JSVector.isArr = true) :
    (docScore w q vectors).isSome := by
  cases vectors with
  | nil => simp at hne
  | cons v rest =>
      have hds : docSimilarities q (v :: rest)
          = cosineSimilarity q (numsOf v) :: docSimilarities q rest := rfl
      simp only [docScore, harr, if_true, hds]
      rfl

theorem docScore_spec (w : ℝ) (q : List ℝ) {vectors : List JSVector}
    (hne : 0 < vectors.length) (harr : vectors.all JSVector.isArr = true) :
    ∃ m, docScore w q vectors
        = some (m * w + ((docSimilarities q vectors).sum
            / ((docSimilarities q vectors).length : ℝ)) * (1 - w))
      ∧ m ∈ docSimilarities q vectors
      ∧ ∀ x ∈ docSimilarities q vectors, x ≤ m := by
  cases vectors with
  | nil => simp at hne
  | cons v rest =>
      have hds : docSimilarities q (v :: rest)
          = cosineSimilarity q (numsOf v) :: docSimilarities q rest := rfl
      refine ⟨(docSimilarities q rest).foldl max (cosineSimilarity q (numsOf v)),
        ?_, ?_, ?_⟩
      · simp only [docScore, harr, if_true, hds]
        rw [foldl_ifmax]
      · rw [hds]; exact foldl_max_mem _ _
      · rw [hds]; exact fun x hx => le_foldl_max _ _ _ hx

theorem scoredAux_cons_some {w : ℝ} {q : List ℝ} {p : String × List JSVector}
    {rest : List (String × List JSVector)} {r : ℝ} {tail : List (String × ℝ)}
    (hd : docScore w q p.2 = some r) (ht : scoredAux w q rest = some tail) :
    scoredAux w q (p :: rest) = some ((p.1, r) :: tail) := by
  simp [scoredAux, hd, ht]

theorem scoredAux_cons_none {w : ℝ} {q : List ℝ} {p : String × List JSVector}
    {rest : List (String × List JSVector)}
    (hd : docScore w q p.2 = none) : scoredAux w q (p :: rest) = none := by
  simp [scoredAux, hd]

theorem scoredAux_cons_none2 {w : ℝ} {q : List ℝ} {p : String × List JSVector}
    {rest : List (String × List JSVector)}
    (ht : scoredAux w q rest = none) : scoredAux w q (p :: rest) = none := by
  cases hd : docScore w q p.2 with
  | none => exact scoredAux_cons_none hd
  | some r => simp [scoredAux, hd, ht]

theorem scoredAux_none_of_bad {w : ℝ} {q : List ℝ} :
    ∀ {c : List (String × List JSVector)},
      (∃ p ∈ c, docScore w q p.2 = none) → scoredAux w q c = none := by
  intro c
  induction c with
  | nil => rintro ⟨p, hp, _⟩; cases hp
  | cons p₀ rest ih =>
      rintro ⟨p, hp, hnone⟩
      rcases List.mem_cons.mp hp with rfl | hp
      · exact scoredAux_cons_none hnone
      · exact scoredAux_cons_none2 (ih ⟨p, hp, hnone⟩)

theorem scoredAux_isSome {w : ℝ} {q : List ℝ} :
    ∀ {c : List (String × List JSVector)},
      (∀ p ∈ c, (docScore w q p.2).isSome) →
      ∃ ys, scoredAux w q c = some ys := by
  intro c
  induction c with
  | nil => intro _; exact ⟨[], rfl⟩
  | cons p rest ih =>
      intro hall
      rcases Option.isSome_iff_exists.mp (hall p (List.mem_cons_self _ _)) with ⟨r, hr⟩
      rcases ih (fun p' hp' => hall p' (List.mem_cons_of_mem _ hp')) with ⟨tail, ht⟩
      exact ⟨(p.1, r) :: tail, scoredAux_cons_some hr ht⟩

theorem scoredAux_some_spec {w : ℝ} {q : List ℝ} :
    ∀ {c : List (String × List JSVector)} {ys : List (String × ℝ)},
      scoredAux w q c = some ys →
      ys.map Prod.fst = c.map Prod.fst
      ∧ ∀ p ∈ c, ∀ r, docScore w q p.2 = some r → (p.1, r) ∈ ys := by
  intro c
  induction c with
  | nil =>
      intro ys h
      have h0 : (some [] : Option (List (String × ℝ))) = some ys := h
      injection h0 with h0
      subst h0
      exact ⟨rfl, by intro p hp; cases hp⟩
  | cons p rest ih =>
      intro ys h
      cases hd : docScore w q p.2 with
      | none => rw [scoredAux_cons_none hd] at h; cases h
      | some r =>
          cases ht : scoredAux w q rest with
          | none => rw [scoredAux_cons_none2 ht] at h; cases h
          | some tail =>
              rw [scoredAux_cons_some hd ht] at h
              injection h with h'
              subst h'
              rcases ih ht with ⟨hkeys, hmem⟩
              refine ⟨by simp [hkeys], ?_⟩
              intro p' hp' r' hr'
              rcases List.mem_cons.mp hp' with rfl | hp'
              · rw [hd] at hr'
                injection hr' with hr'
                subst hr'
                exact List.mem_cons_self _ _
              · exact List.mem_cons_of_mem _ (hmem p' hp' r' hr')

/-! ### Sorting lemmas (stability of the modelled stable sort) -/

theorem orderedInsert_filter (x : String × ℝ) (c : ℝ) :
    ∀ l : List (String × ℝ),
      (List.orderedInsert byScoreDesc x l).filter (fun p => decide (p.2 = c))
        = if x.2 = c
          then x :: l.filter (fun p => decide (p.2 = c))
          else l.filter (fun p => decide (p.2 = c)) := by
  intro l
  induction l with
  | nil =>
      simp only [List.orderedInsert]
      by_cases h : x.2 = c
      · simp [h]
      · simp [h]
  | cons y l ih =>
      simp only [List.orderedInsert]
      by_cases hr : byScoreDesc x y
      · rw [if_pos hr]
        by_cases hx : x.2 = c
        · simp [List.filter_cons, hx]
        · simp [List.filter_cons, hx]
      · rw [if_neg hr]
        by_cases hy : y.2 = c
        · by_cases hx : x.2 = c
          · exfalso
            exact hr (show y.2 ≤ x.2 by rw [hy, hx])
          · simp [List.filter_cons, hy, hx, ih]
        · by_cases hx : x.2 = c
          · simp [List.filter_cons, hy, hx, ih]
          · simp [List.filter_cons, hy, hx, ih]

theorem insertionSort_filter (c : ℝ) :
    ∀ l : List (String × ℝ),
      (List.insertionSort byScoreDesc l).filter (fun p => decide (p.2 = c))
        = l.filter (fun p => decide (p.2 = c)) := by
  intro l
  induction l with
  | nil => rfl
  | cons x l ih =>
      simp only [List.insertionSort]
      rw [orderedInsert_filter]
      by_cases hx : x.2 = c
      · rw [if_pos hx, ih, List.filter_cons]
        simp [hx]
      · rw [if_neg hx, ih, List.filter_cons]
        simp [hx]

theorem filter_mono_isPrefix {l₁ l₂ : List (String × ℝ)}
    (f : String × ℝ → Bool) (h : l₁ <+: l₂) :
    l₁.filter f <+: l₂.filter f := by
  rcases h with ⟨t, rfl⟩
  exact ⟨t.filter f, (List.filter_append _ _).symm⟩

theorem take_isPrefix {α : Type} (n : ℕ) (l : List α) : l.take n <+: l :=
  ⟨l.drop n, List.take_append_drop n l⟩

/-- Witness for C8 at a concrete input. -/
theorem calculateChunks_count_witness :
    (calculateChunks 3 1 ['a', 'b', 'c', 'd', 'e']).length
        = ceilDiv (tokenize ['a', 'b', 'c', 'd', 'e']).length (3 - 1)
    ∧ chunkStarts (tokenize ['a', 'b', 'c', 'd', 'e']).length (3 - 1) 0
        = (List.range
            (ceilDiv (tokenize ['a', 'b', 'c', 'd', 'e']).length (3 - 1))).map
            (fun k => k * (3 - 1))
    ∧ (['a', 'b', 'c', 'd', 'e'] = ([] : List Char) →
        calculateChunks 3 1 ['a', 'b', 'c', 'd', 'e'] = []) :=
  calculateChunks_count 3 1 (by omega) ['a', 'b', 'c', 'd', 'e']

/-- C5: on a store whose documents are well-formed (non-empty lists of array
vectors, as the spec's `EmbeddingDocument` requires), `findSimilar` raises no
error and returns exactly `min n lookups` results, sorted by non-increasing
score, with equal-score entries kept in the cache's iteration order (the
filtered output at each score value is a prefix of the filtered scored list,
which is in cache order); on an empty store it returns the empty list. -/
theorem findSimilar_count_sorted (s : VectorStore) (q : List ℝ)
    (hwf : ∀ p ∈ s.cache, 0 < p.2.length ∧ p.2.all JSVector.isArr = true) :
    ∃ scored res,
      scoredList s q = some scored
      ∧ s.findSimilar q = some res
      ∧ scored.map Prod.fst = s.cache.map Prod.fst
      ∧ res.length = min s.cache.length s.lookups
      ∧ res.Sorted byScoreDesc
      ∧ (∀ c : ℝ, res.filter (fun p => decide (p.2 = c))
            <+: scored.filter (fun p => decide (p.2 = c)))
      ∧ (s.cache = [] → res = []) := by
  have hall : ∀ p ∈ s.cache, (docScore s.maxWeight q p.2).isSome :=
    fun p hp => docScore_isSome s.maxWeight q (hwf p hp).1 (hwf p hp).2
  rcases scoredAux_isSome hall with ⟨scored, hscored⟩
  have hspec := scoredAux_some_spec hscored
  have hfind : s.findSimilar q
      = some ((List.insertionSort byScoreDesc scored).take s.lookups) := by
    unfold VectorStore.findSimilar
    rw [show scoredList s q = some scored from hscored]
    rfl
  refine ⟨scored, (List.insertionSort byScoreDesc scored).take s.lookups,
    hscored, hfind, hspec.1, ?_, ?_, ?_, ?_⟩
  · rw [List.length_take, List.length_insertionSort]
    have hlen : scored.length = s.cache.length := by
      have := congrArg List.length hspec.1
      simpa using this
    rw [hlen, Nat.min_comm]
  · exact List.Pairwise.sublist (List.take_sublist _ _)
      (List.sorted_insertionSort byScoreDesc scored)
  · intro c
    have hpre := filter_mono_isPrefix (fun p => decide (p.2 = c))
      (take_isPrefix s.lookups (List.insertionSort byScoreDesc scored))
    rw [insertionSort_filter] at hpre
    exact hpre
  · intro hcache
    rw [hcache] at hscored
    have h0 : (some ([] : List (String × ℝ))) = some scored := hscored
    injection h0 with h0
    rw [← h0]
    simp

/-- Witness for C5 at a concrete three-document store with `lookups = 2`. -/
theorem findSimilar_count_sorted_witness :
    (∀ p ∈ exampleStore.cache, 0 < p.2.length ∧ p.2.all JSVector.isArr = true)
    ∧ ∃ scored res,
        scoredList exampleStore [1] = some scored
        ∧ exampleStore.findSimilar [1] = some res
        ∧ scored.map Prod.fst = exampleStore.cache.map Prod.fst
        ∧ res.length = min exampleStore.cache.length exampleStore.lookups
        ∧ res.Sorted byScoreDesc
        ∧ (∀ c : ℝ, res.filter (fun p => decide (p.2 = c))
              <+: scored.filter (fun p => decide (p.2 = c)))
        ∧ (exampleStore.cache = [] → res = []) :=
  ⟨by decide, findSimilar_count_sorted exampleStore [1] (by decide)⟩

/-- C6: for a single query vector, the score `findSimilar` assigns to each
well-formed stored document is `maxChunkSimilarity * maxWeight +
avgChunkSimilarity * (1 - maxWeight)`, the chunk similarities being
`cosineSimilarity` of the query against every vector of the document. -/
theorem findSimilar_score_formula (s : VectorStore) (q : List ℝ) (id : String)
    (vecs : List JSVector) (hmem : (id, vecs) ∈ s.cache)
    (hwf : ∀ p ∈ s.cache, 0 < p.2.length ∧ p.2.all JSVector.isArr = true) :
    ∃ scored m,
      scoredList s q = some scored
      ∧ s.findSimilar q
          = some ((List.insertionSort byScoreDesc scored).take s.lookups)
      ∧ (id, m * s.maxWeight
            + ((docSimilarities q vecs).sum
                / ((docSimilarities q vecs).length : ℝ)) * (1 - s.maxWeight))
          ∈ scored
      ∧ m ∈ docSimilarities q vecs
      ∧ ∀ x ∈ docSimilarities q vecs, x ≤ m := by
  have hall : ∀ p ∈ s.cache, (docScore s.maxWeight q p.2).isSome :=
    fun p hp => docScore_isSome s.maxWeight q (hwf p hp).1 (hwf p hp).2
  rcases scoredAux_isSome hall with ⟨scored, hscored⟩
  rcases docScore_spec s.maxWeight q (hwf (id, vecs) hmem).1
    (hwf (id, vecs) hmem).2 with ⟨m, hsome, hm, hmax⟩
  have hspec := scoredAux_some_spec hscored
  refine ⟨scored, m, hscored, ?_, ?_, hm, hmax⟩
  · unfold VectorStore.findSimilar
    rw [show scoredList s q = some scored from hscored]
    rfl
  · exact hspec.2 (id, vecs) hmem _ hsome

/-- Witness for C6 at a concrete store and document. -/
theorem findSimilar_score_formula_witness :
    (("d1", [JSVector.arr [JSElem.num 1]]) ∈ exampleStore.cache)
    ∧ (∀ p ∈ exampleStore.cache, 0 < p.2.length ∧ p.2.all JSVector.isArr = true)
    ∧ ∃ scored m,
        scoredList exampleStore [1] = some scored
        ∧ exampleStore.findSimilar [1]
            = some ((List.insertionSort byScoreDesc scored).take
                exampleStore.lookups)
        ∧ (("d1", m * exampleStore.maxWeight
              + ((docSimilarities [1] [JSVector.arr [JSElem.num 1]]).sum
                  / ((docSimilarities [1] [JSVector.arr [JSElem.num 1]]).length : ℝ))
                * (1 - exampleStore.maxWeight)) ∈ scored)
        ∧ m ∈ docSimilarities [1] [JSVector.arr [JSElem.num 1]]
        ∧ ∀ x ∈ docSimilarities [1] [JSVector.arr [JSElem.num 1]], x ≤ m :=
  ⟨List.mem_cons_self _ _, by decide,
    findSimilar_score_formula exampleStore [1] "d1" [JSVector.arr [JSElem.num 1]]
      (List.mem_cons_self _ _) (by decide)⟩

/-- C9: both `add` and `addBatch` accept a document with an empty vector
list (validation is vacuous and the id is stored mapped to the empty list);
once any stored document has an empty vector list every `findSimilar` call
fails (the `reduce` over the empty similarity list throws); `findSimilar`
succeeds when every stored document's vector list is non-empty (and holds
arrays, as validation guarantees). -/
theorem findSimilar_empty_doc (s : VectorStore) (id : String) (q : List ℝ) :
    ((s.add ⟨id, []⟩).2 = none
      ∧ (s.add ⟨id, []⟩).1.cache = mapSet s.cache id []
      ∧ (s.addBatch [⟨id, []⟩]).2 = none
      ∧ (s.addBatch [⟨id, []⟩]).1.cache = mapSet s.cache id [])
    ∧ ((∃ p ∈ s.cache, p.2.length = 0) → s.findSimilar q = none)
    ∧ ((∀ p ∈ s.cache, 0 < p.2.length ∧ p.2.all JSVector.isArr = true) →
        (s.findSimilar q).isSome) := by
  refine ⟨⟨rfl, rfl, rfl, rfl⟩, ?_, ?_⟩
  · rintro ⟨p, hp, hlen⟩
    have hnil : p.2 = [] := List.length_eq_zero.mp hlen
    have hnone : docScore s.maxWeight q p.2 = none := by rw [hnil]; rfl
    unfold VectorStore.findSimilar
    rw [show scoredList s q = none from scoredAux_none_of_bad ⟨p, hp, hnone⟩]
    rfl
  · intro hwf
    have hall : ∀ p ∈ s.cache, (docScore s.maxWeight q p.2).isSome :=
      fun p hp => docScore_isSome s.maxWeight q (hwf p hp).1 (hwf p hp).2
    rcases scoredAux_isSome hall with ⟨ys, hys⟩
    unfold VectorStore.findSimilar
    rw [show scoredList s q = some ys from hys]
    rfl

/-- Witness for C9: a store holding an empty-vector document makes
`findSimilar` fail; a well-formed store makes it succeed. -/
theorem findSimilar_empty_doc_witness :
    (∃ p ∈ emptyDocStore.cache, p.2.length = 0)
    ∧ emptyDocStore.findSimilar [] = none
    ∧ (exampleStore.findSimilar [1]).isSome :=
  ⟨⟨("e", []), List.mem_cons_self _ _, rfl⟩,
    (findSimilar_empty_doc emptyDocStore "x" []).2.1
      ⟨("e", []), List.mem_cons_self _ _, rfl⟩,
    (findSimilar_empty_doc exampleStore "x" [1]).2.2 (by decide)⟩

/-! ### State-equation lemmas for `add`/`addBatch` -/

theorem add_eq_err {s : VectorStore} {doc : EmbeddingDocument} {d : ℕ}
    {e : VError} (hres : validateVectors s.dimension doc.id doc.vectors = (d, some e)) :
    s.add doc = ({ s with dimension := d }, some e) := by
  simp [VectorStore.add, hres]

theorem add_eq_ok {s : VectorStore} {doc : EmbeddingDocument} {d : ℕ}
    (hres : validateVectors s.dimension doc.id doc.vectors = (d, none)) :
    s.add doc = ({ s with dimension := d, cache := mapSet s.cache doc.id doc.vectors }, none) := by
  simp [VectorStore.add, hres]

theorem addBatch_eq_err {s : VectorStore} {docs : List EmbeddingDocument}
    {d : ℕ} {e : VError} (hres : validateDocs s.dimension docs = (d, some e)) :
    s.addBatch docs = ({ s with dimension := d }, some e) := by
  simp [VectorStore.addBatch, hres]

theorem addBatch_eq_ok {s : VectorStore} {docs : List EmbeddingDocument}
    {d : ℕ} (hres : validateDocs s.dimension docs = (d, none)) :
    s.addBatch docs = ({ s with dimension := d, cache := docs.foldl (fun c doc => mapSet c doc.id doc.vectors) s.cache }, none) := by
  simp [VectorStore.addBatch, hres]

/-- C2 counterexample: on a fresh store, `add` of a document whose first
vector has length 1 and second has length 2 raises the dimension-mismatch
error, yet the store's remembered dimension has changed from 0 to 1 — the
claim that the ENTIRE state (including the dimension) is rolled back is
false. -/
theorem add_error_state_cx :
    ((freshStore none 3 1).add
        ⟨"doc", [.arr [.num 1], .arr [.num 1, .num 1]]⟩).2.isSome
    ∧ ((freshStore none 3 1).add
        ⟨"doc", [.arr [.num 1], .arr [.num 1, .num 1]]⟩).1.dimension
        ≠ (freshStore none 3 1).dimension := by
  exact ⟨rfl, by decide⟩

/-- C2 as amended: when `add` or `addBatch` raises a validation error the
id-to-vector-list mapping is exactly what it was before the call, and the
remembered dimension is unchanged whenever it was already nonzero (a failing
call on a store with dimension 0 may still set the dimension to the length
of a vector validated before the error). -/
theorem add_error_state (s : VectorStore) (doc : EmbeddingDocument)
    (docs : List EmbeddingDocument) :
    ((s.add doc).2.isSome →
        (s.add doc).1.cache = s.cache
        ∧ (s.dimension ≠ 0 → (s.add doc).1.dimension = s.dimension))
    ∧ ((s.addBatch docs).2.isSome →
        (s.addBatch docs).1.cache = s.cache
        ∧ (s.dimension ≠ 0 → (s.addBatch docs).1.dimension = s.dimension)) := by
  constructor
  · intro herr
    cases hres : validateVectors s.dimension doc.id doc.vectors with
    | mk d err =>
        cases err with
        | none => rw [add_eq_ok hres] at herr; simp at herr
        | some e =>
            rw [add_eq_err hres]
            refine ⟨rfl, fun hd => ?_⟩
            have hd' := validateVectors_dim_ne_zero hd doc.id doc.vectors
            rw [hres] at hd'
            exact hd'
  · intro herr
    cases hres : validateDocs s.dimension docs with
    | mk d err =>
        cases err with
        | none => rw [addBatch_eq_ok hres] at herr; simp at herr
        | some e =>
            rw [addBatch_eq_err hres]
            refine ⟨rfl, fun hd => ?_⟩
            have hd' := validateDocs_dim_ne_zero hd docs
            rw [hres] at hd'
            exact hd'

/-- Witness for the amended C2 at a store with locked dimension 1 and a
failing `add`. -/
theorem add_error_state_witness :
    (lockedStore.add ⟨"b", [.arr []]⟩).2.isSome
    ∧ (lockedStore.add ⟨"b", [.arr []]⟩).1.cache = lockedStore.cache
    ∧ (lockedStore.add ⟨"b", [.arr []]⟩).1.dimension = lockedStore.dimension := by
  have h := (add_error_state lockedStore ⟨"b", [.arr []]⟩ []).1 (by decide)
  exact ⟨by decide, h.1, h.2 (by decide)⟩

/-- C3 counterexample: an empty vector is accepted while the dimension is
still 0; after a later add locks the dimension to 1, the store holds a
vector of length 0 ≠ 1, refuting the claim that every stored vector has
length d once the dimension is set to d ≠ 0. -/
theorem dimension_lock_cx :
    (((freshStore none 3 1).add ⟨"a", [.arr []]⟩).2 = none)
    ∧ ((((freshStore none 3 1).add ⟨"a", [.arr []]⟩).1.add
        ⟨"b", [.arr [.num 1]]⟩).2 = none)
    ∧ ((((freshStore none 3 1).add ⟨"a", [.arr []]⟩).1.add
        ⟨"b", [.arr [.num 1]]⟩).1.dimension = 1)
    ∧ ((((freshStore none 3 1).add ⟨"a", [.arr []]⟩).1.add
        ⟨"b", [.arr [.num 1]]⟩).1.cache.map (fun p => (p.1, p.2.map jsLen)))
        = [("a", [0]), ("b", [1])] := by
  decide

/-- Preservation of the dimension invariant by `add`. -/
theorem storeInv_add (s : VectorStore) (doc : EmbeddingDocument)
    (h : StoreInv s) : StoreInv (s.add doc).1 := by
  cases hres : validateVectors s.dimension doc.id doc.vectors with
  | mk d err =>
      have hdim : s.dimension ≠ 0 → d = s.dimension := by
        intro hd
        have hd' := validateVectors_dim_ne_zero hd doc.id doc.vectors
        rw [hres] at hd'
        exact hd'
      have hold : ∀ p ∈ s.cache, ∀ v ∈ p.2, GoodVec d v := by
        intro p hp v hv
        rcases h p hp v hv with ⟨hnum, hlen⟩
        by_cases hd : s.dimension = 0
        · rw [hd] at hlen
          refine ⟨hnum, .inl ?_⟩
          omega
        · rw [hdim hd]
          exact ⟨hnum, hlen⟩
      cases err with
      | some e =>
          rw [add_eq_err hres]
          intro p hp v hv
          exact hold p hp v hv
      | none =>
          rw [add_eq_ok hres]
          intro p hp v hv
          rcases mem_of_mem_mapSet hp with rfl | hp'
          · have hgood := validateVectors_ok_good
              (show (validateVectors s.dimension doc.id doc.vectors).2 = none by
                rw [hres])
            rcases hgood v hv with ⟨hnum, hlen, _⟩
            rw [hres] at hlen
            exact ⟨hnum, hlen⟩
          · exact hold p hp' v hv

/-- Preservation of the dimension invariant by `addBatch`. -/
theorem storeInv_addBatch (s : VectorStore) (docs : List EmbeddingDocument)
    (h : StoreInv s) : StoreInv (s.addBatch docs).1 := by
  cases hres : validateDocs s.dimension docs with
  | mk d err =>
      have hdim : s.dimension ≠ 0 → d = s.dimension := by
        intro hd
        have hd' := validateDocs_dim_ne_zero hd docs
        rw [hres] at hd'
        exact hd'
      have hold : ∀ p ∈ s.cache, ∀ v ∈ p.2, GoodVec d v := by
        intro p hp v hv
        rcases h p hp v hv with ⟨hnum, hlen⟩
        by_cases hd : s.dimension = 0
        · rw [hd] at hlen
          refine ⟨hnum, .inl ?_⟩
          omega
        · rw [hdim hd]
          exact ⟨hnum, hlen⟩
      cases err with
      | some e =>
          rw [addBatch_eq_err hres]
          intro p hp v hv
          exact hold p hp v hv
      | none =>
          rw [addBatch_eq_ok hres]
          intro p hp v hv
          rcases mem_foldl_mapSet EmbeddingDocument.id EmbeddingDocument.vectors
              docs s.cache p hp with ⟨a, ha, rfl⟩ | hp'
          · have hgood := validateDocs_ok_good
              (show (validateDocs s.dimension docs).2 = none by rw [hres])
            rcases hgood a ha v hv with ⟨hnum, hlen, _⟩
            rw [hres] at hlen
            exact ⟨hnum, hlen⟩
          · exact hold p hp' v hv

/-- C3 as amended: from a fresh store, along any sequence of mutating calls,
every stored vector is a numeric array whose length is the store's dimension
or 0 (zero-length vectors can only have been stored while the dimension was
unset); and once the dimension is a nonzero d, any `add` or `addBatch`
containing a vector that is not a numeric array of length d raises a
validation error naming an offending document's id, leaving the dimension
at d. -/
theorem dimension_lock (lookups : ℕ) (w : ℝ) (ops : List StoreOp)
    (s : VectorStore) (doc : EmbeddingDocument)
    (docs : List EmbeddingDocument) :
    StoreInv (runOps (freshStore none lookups w) ops)
    ∧ (s.dimension ≠ 0 →
        (∃ v ∈ doc.vectors, isNumericArray v = false ∨ jsLen v ≠ s.dimension) →
        ∃ e, (s.add doc).2 = some e ∧ e.docId = doc.id
          ∧ (s.add doc).1.dimension = s.dimension)
    ∧ (s.dimension ≠ 0 →
        (∃ doc' ∈ docs, ∃ v ∈ doc'.vectors,
            isNumericArray v = false ∨ jsLen v ≠ s.dimension) →
        ∃ e, (s.addBatch docs).2 = some e
          ∧ (∃ doc' ∈ docs, e.docId = doc'.id
              ∧ ∃ v ∈ doc'.vectors,
                  isNumericArray v = false ∨ jsLen v ≠ s.dimension)
          ∧ (s.addBatch docs).1.dimension = s.dimension) := by
  refine ⟨?_, ?_, ?_⟩
  · have hrun : ∀ (l : List StoreOp) (t : VectorStore), StoreInv t →
        StoreInv (runOps t l) := by
      intro l
      induction l with
      | nil => intro t ht; exact ht
      | cons op rest ih =>
          intro t ht
          cases op with
          | add doc' => exact ih _ (storeInv_add t doc' ht)
          | addBatch docs' => exact ih _ (storeInv_addBatch t docs' ht)
          | clear => exact ih _ (by intro p hp v hv; cases hp)
    exact hrun ops _ (by intro p hp v hv; cases hp)
  · intro hd hbad
    cases hres : validateVectors s.dimension doc.id doc.vectors with
    | mk d err =>
        have hd' : d = s.dimension := by
          have h1 := validateVectors_dim_ne_zero hd doc.id doc.vectors
          rw [hres] at h1
          exact h1
        subst hd'
        have herr : err.isSome := by
          have h2 := validateVectors_fails hd doc.id hbad
          rw [hres] at h2
          exact h2
        obtain ⟨e, rfl⟩ := Option.isSome_iff_exists.mp herr
        refine ⟨e, ?_, ?_, ?_⟩
        · rw [add_eq_err hres]
        · exact validateVectors_error_docId
            (show (validateVectors s.dimension doc.id doc.vectors).2 = some e by
              rw [hres])
        · rw [add_eq_err hres]
  · intro hd hbad
    cases hres : validateDocs s.dimension docs with
    | mk d err =>
        have hd' : d = s.dimension := by
          have h1 := validateDocs_dim_ne_zero hd docs
          rw [hres] at h1
          exact h1
        subst hd'
        have herr : err.isSome := by
          have h2 := validateDocs_fails hd hbad
          rw [hres] at h2
          exact h2
        obtain ⟨e, rfl⟩ := Option.isSome_iff_exists.mp herr
        refine ⟨e, ?_, ?_, ?_⟩
        · rw [addBatch_eq_err hres]
        · exact validateDocs_error_ne_zero hd
            (show (validateDocs s.dimension docs).2 = some e by rw [hres])
        · rw [addBatch_eq_err hres]

/-- Witness for the amended C3 at a locked store with a mismatched `add` and
a mismatched `addBatch`. -/
theorem dimension_lock_witness :
    StoreInv (runOps (freshStore none 3 1) [])
    ∧ (∃ e, (lockedStore.add ⟨"b", [.arr [.num 1, .num 1]]⟩).2 = some e
        ∧ e.docId = "b"
        ∧ (lockedStore.add ⟨"b", [.arr [.num 1, .num 1]]⟩).1.dimension
            = lockedStore.dimension)
    ∧ (∃ e, (lockedStore.addBatch [⟨"c", [.arr []]⟩]).2 = some e
        ∧ (∃ doc' ∈ [(⟨"c", [.arr []]⟩ : EmbeddingDocument)],
            e.docId = doc'.id
            ∧ ∃ v ∈ doc'.vectors,
                isNumericArray v = false ∨ jsLen v ≠ lockedStore.dimension)
        ∧ (lockedStore.addBatch [⟨"c", [.arr []]⟩]).1.dimension
            = lockedStore.dimension) := by
  have h := dimension_lock 3 1 [] lockedStore
    ⟨"b", [.arr [.num 1, .num 1]]⟩ [⟨"c", [.arr []]⟩]
  refine ⟨h.1, h.2.1 (by decide) ?_, h.2.2 (by decide) ?_⟩
  · exact ⟨.arr [.num 1, .num 1], List.mem_cons_self _ _, .inr (by decide)⟩
  · exact ⟨⟨"c", [.arr []]⟩, List.mem_cons_self _ _,
      .arr [], List.mem_cons_self _ _, .inr (by decide)⟩

/-- C7: persistence round-trip.  Starting from a fresh store over an empty
slot, a successful `addBatch`, a completed flush (the microtask having run),
and a fresh store constructed over the written slot yield a store whose
`size()` is the number of distinct document ids added. -/
theorem roundTrip (docs : List EmbeddingDocument) (lookups lookups2 : ℕ)
    (w w2 : ℝ)
    (hok : ((freshStore none lookups w).addBatch docs).2 = none) :
    (freshStore
        (some (saveToStorage ((freshStore none lookups w).addBatch docs).1))
        lookups2 w2).size
      = (docs.map EmbeddingDocument.id).dedup.length := by
  cases hres : validateDocs (freshStore none lookups w).dimension docs with
  | mk d err =>
      cases err with
      | some e => rw [addBatch_eq_err hres] at hok; cases hok
      | none =>
          have hadd : ((freshStore none lookups w).addBatch docs).1.cache
              = docs.foldl (fun c doc => mapSet c doc.id doc.vectors) [] := by
            rw [addBatch_eq_ok hres]
            rfl
          have hnodup : ((docs.foldl (fun c doc => mapSet c doc.id doc.vectors)
              ([] : List (String × List JSVector))).map Prod.fst).Nodup :=
            foldl_mapSet_keys_nodup EmbeddingDocument.id EmbeddingDocument.vectors
              docs [] (by simp)
          have hload : (freshStore
              (some (saveToStorage ((freshStore none lookups w).addBatch docs).1))
              lookups2 w2).size
              = ((((freshStore none lookups w).addBatch docs).1.cache).foldl
                  (fun c p => mapSet c p.1 p.2) []).length := rfl
          have hreload : (docs.foldl (fun c doc => mapSet c doc.id doc.vectors)
              ([] : List (String × List JSVector))).foldl
              (fun c p => mapSet c p.1 p.2) []
              = docs.foldl (fun c doc => mapSet c doc.id doc.vectors) [] := by
            have hfr := foldl_mapSet_fresh Prod.fst Prod.snd
              (docs.foldl (fun c doc => mapSet c doc.id doc.vectors) []) []
              hnodup (by simp)
            simpa using hfr
          have hmem : ∀ k, k ∈ (docs.foldl (fun c doc => mapSet c doc.id doc.vectors)
              ([] : List (String × List JSVector))).map Prod.fst
              ↔ k ∈ docs.map EmbeddingDocument.id := by
            intro k
            have hm := mem_foldl_mapSet_keys EmbeddingDocument.id
              EmbeddingDocument.vectors docs [] k
            simpa using hm
          have hperm : ((docs.foldl (fun c doc => mapSet c doc.id doc.vectors)
              ([] : List (String × List JSVector))).map Prod.fst).Perm
              (docs.map EmbeddingDocument.id).dedup :=
            (List.perm_ext_iff_of_nodup hnodup
              (List.nodup_dedup _)).mpr
              (fun a => by rw [List.mem_dedup]; exact hmem a)
          rw [hload, hadd, hreload]
          calc (docs.foldl (fun c doc => mapSet c doc.id doc.vectors)
              ([] : List (String × List JSVector))).length
              = ((docs.foldl (fun c doc => mapSet c doc.id doc.vectors)
                  ([] : List (String × List JSVector))).map Prod.fst).length :=
                (List.length_map _ _).symm
            _ = (docs.map EmbeddingDocument.id).dedup.length := hperm.length_eq

/-- Witness for C7: three documents with two distinct ids round-trip to a
store of size 2. -/
theorem roundTrip_witness :
    (((freshStore none 3 1).addBatch
        [⟨"a", [.arr [.num 1]]⟩, ⟨"b", [.arr [.num 2]]⟩,
          ⟨"a", [.arr [.num 3]]⟩]).2 = none)
    ∧ (freshStore
        (some (saveToStorage ((freshStore none 3 1).addBatch
          [⟨"a", [.arr [.num 1]]⟩, ⟨"b", [.arr [.num 2]]⟩,
            ⟨"a", [.arr [.num 3]]⟩]).1)) 5 1).size
      = ([(⟨"a", [.arr [.num 1]]⟩ : EmbeddingDocument),
          ⟨"b", [.arr [.num 2]]⟩, ⟨"a", [.arr [.num 3]]⟩].map
          EmbeddingDocument.id).dedup.length :=
  ⟨by decide,
    roundTrip [⟨"a", [.arr [.num 1]]⟩, ⟨"b", [.arr [.num 2]]⟩,
      ⟨"a", [.arr [.num 3]]⟩] 3 5 1 1 (by decide)⟩

/-- C1 (spec-modelled): the chunk similarity of the final revision equals
plain cosine similarity squared, multiplied by
`(min(normA,normB)/max(normA,normB)) ^ boostExponent`, with `boostExponent`
equal to `queryBoostFactor` when the query vector's norm is smaller than the
document vector's norm and 1 otherwise; and the per-query score of
`findSimilar` blends exactly these chunk similarities. -/
theorem similarity_length_normalized (queryBoostFactor : ℝ) (a b : List ℝ) :
    cosineSimilarityFinal queryBoostFactor a b
      = (cosineSimilarity a b) ^ 2
        * (min (vecNorm a) (vecNorm b) / max (vecNorm a) (vecNorm b))
          ^ (if vecNorm a < vecNorm b then queryBoostFactor else 1)
    ∧ ∀ (w : ℝ) (vectors : List (List ℝ)),
        perQueryScoreFinal w queryBoostFactor a vectors
          = maxSim (vectors.map
                (fun c => cosineSimilarityFinal queryBoostFactor a c)) * w
            + ((vectors.map
                  (fun c => cosineSimilarityFinal queryBoostFactor a c)).sum
                / ((vectors.map
                    (fun c => cosineSimilarityFinal queryBoostFactor a c)).length : ℝ))
              * (1 - w) :=
  ⟨rfl, fun _ _ => rfl⟩

/-- C4 (spec-modelled): the final `findSimilar` accepts a single query
vector or a sequence; a single vector behaves as the one-element sequence,
and each document's final score is the arithmetic mean of its per-query
scores. -/
theorem findSimilarFinal_multi_query (lookups : ℕ) (w qbf : ℝ)
    (cache : List (String × List (List ℝ))) (v : List ℝ)
    (qs : List (List ℝ)) (vectors : List (List ℝ)) :
    findSimilarFinal lookups w qbf cache (.single v)
        = findSimilarFinal lookups w qbf cache (.multi [v])
    ∧ docScoreFinal w qbf qs vectors
        = (qs.map (fun q => perQueryScoreFinal w qbf q vectors)).sum
            / (qs.length : ℝ)
    ∧ findSimilarFinal lookups w qbf cache (.multi qs)
        = (List.insertionSort byScoreDesc
            (cache.map (fun p => (p.1, docScoreFinal w qbf qs p.2)))).take
          lookups :=
  ⟨rfl, rfl, rfl⟩

end Aide
